import Mathlib

/-!
Shallow embedding of the partitioned-dataframe preprocessing engine of the
secretflow repository (spec.md).  The repository snapshot under consideration
contains only the tutorial notebook `docs/tutorial/Preprocessing.ipynb`, which
exercises the engine (h_read_csv / v_read_csv, fillna, MinMaxScaler,
OneHotEncoder, LabelEncoder) but does not contain the engine code itself, so
every definition below is modelled from the spec: the data model of §3, the
capability contracts of §4.1-4.2, the table operations of §4.3 and the four
transformers of §4.4-4.7, with the plaintext (Plain*) reduction semantics.

Numeric cell values are rationals (exact arithmetic stands in for the
engine's floats); categorical values are strings; a missing cell is an
explicit constructor.  A transformer working on one logical column sees a
layout `parts : List (List Cell)`: for a ROW-SPLIT table these are the
column's per-party row slices in partition order (their concatenation is the
logical column in canonical row order); for a COLUMN-SPLIT table the column
resides wholly with one party, i.e. the layout is the one-block list
`[col]`.
-/

namespace SecretFlow

/-- Modelled from the spec (§3): a cell of a partition is a numeric value,
a categorical value, or missing. -/
inductive Cell where
  | num (q : ℚ)
  | cat (s : String)
  | missing
deriving DecidableEq, Repr

/-- The numeric content of a cell, if any. -/
def cellNum? : Cell → Option ℚ
  | Cell.num q => some q
  | _ => none

/-- The categorical content of a cell, if any. -/
def cellCat? : Cell → Option String
  | Cell.cat s => some s
  | _ => none

/-- The numeric values of a column, in row order (missing cells skipped,
as the engine's statistics skip NaN). -/
def nums (cells : List Cell) : List ℚ := cells.filterMap cellNum?

/-- The categorical values of a column, in row order. -/
def catsOf (cells : List Cell) : List String := cells.filterMap cellCat?

/-- Modelled from the spec (§7): the error taxonomy of the engine.
`MissingCapability` models the failure of constructing a ROW-SPLIT table
without the required Aggregator/Comparator (h_read_csv requires both). -/
inductive PError where
  | UnknownColumnError
  | NotFittedError
  | UnseenCategoryError
  | AggregationError
  | ComparisonError
  | PartitionShapeError
  | MissingCapability
deriving DecidableEq, Repr

/-- Modelled from the spec (§4.1): the Aggregator capability, combining
per-party values into a single global result. -/
structure Aggregator where
  aggregate : List (String × ℚ) → Except PError ℚ

/-- Modelled from the spec (§4.1): the plaintext Aggregator simply sums;
it fails with `AggregationError` on an empty input set. -/
def PlainAggregator : Aggregator :=
  ⟨fun vs =>
    match vs with
    | [] => Except.error PError.AggregationError
    | _ => Except.ok ((vs.map Prod.snd).sum)⟩

/-- Modelled from the spec (§4.2): the Comparator capability, computing the
global min/max across per-party values. -/
structure Comparator where
  reduce_min : List ℚ → Except PError ℚ
  reduce_max : List ℚ → Except PError ℚ

/-- Modelled from the spec (§4.2): the plaintext Comparator folds min/max;
it fails with `ComparisonError` on an empty input set. -/
def PlainComparator : Comparator :=
  ⟨fun vs =>
    match vs with
    | [] => Except.error PError.ComparisonError
    | x :: xs => Except.ok (xs.foldl min x),
   fun vs =>
    match vs with
    | [] => Except.error PError.ComparisonError
    | x :: xs => Except.ok (xs.foldl max x)⟩

/-! ### Local and reduced min/max statistics (MinMaxScaler fit phase) -/

/-- Minimum of a list of rationals, `none` when empty. -/
def foldMin : List ℚ → Option ℚ
  | [] => none
  | x :: xs => some (xs.foldl min x)

/-- Maximum of a list of rationals, `none` when empty. -/
def foldMax : List ℚ → Option ℚ
  | [] => none
  | x :: xs => some (xs.foldl max x)

/-- Combine two optional minima (a party with no numeric values contributes
nothing to the reduction). -/
def optMin : Option ℚ → Option ℚ → Option ℚ
  | none, b => b
  | some x, none => some x
  | some x, some y => some (min x y)

/-- Combine two optional maxima. -/
def optMax : Option ℚ → Option ℚ → Option ℚ
  | none, b => b
  | some x, none => some x
  | some x, some y => some (max x y)

/-- Local (per-partition) minimum of a column slice. -/
def localMin (cells : List Cell) : Option ℚ := foldMin (nums cells)

/-- Local (per-partition) maximum of a column slice. -/
def localMax (cells : List Cell) : Option ℚ := foldMax (nums cells)

/-- Comparator-style reduction of per-party local minima. -/
def reduceMinO (vs : List (Option ℚ)) : Option ℚ := vs.foldl optMin none

/-- Comparator-style reduction of per-party local maxima. -/
def reduceMaxO (vs : List (Option ℚ)) : Option ℚ := vs.foldl optMax none

/-- Modelled from the spec (§4.5): MinMaxScaler `fit` on a column layout —
each partition computes its local min and max, then the Comparator reduces
them to one global min and one global max; `none` when the column holds no
numeric value at all (the reduction has an empty input set). -/
def minmaxFitParts (parts : List (List Cell)) : Option (ℚ × ℚ) :=
  match reduceMinO (parts.map localMin), reduceMaxO (parts.map localMax) with
  | some mn, some mx => some (mn, mx)
  | _, _ => none

/-- Modelled from the spec (§4.5): the elementwise transform of
MinMaxScaler — `(x - min) / (max - min)`, and the documented degenerate
case `max = min`, in which every value maps to 0. -/
def scaleCell (mn mx : ℚ) : Cell → Cell
  | Cell.num q => Cell.num (if mx = mn then 0 else (q - mn) / (mx - mn))
  | c => c

/-- Modelled from the spec (§4.5): `fit_transform` of MinMaxScaler on a
column layout; the broadcast state is applied elementwise to every
partition.  An empty reduction input fails with `ComparisonError`. -/
def minmaxFitTransform (parts : List (List Cell)) :
    Except PError (List (List Cell)) :=
  match minmaxFitParts parts with
  | none => Except.error PError.ComparisonError
  | some st => Except.ok (parts.map (List.map (scaleCell st.1 st.2)))

/-! ### Category collection (OneHotEncoder / LabelEncoder fit phase) -/

/-- Append a category to an ordered category set unless already present
(keeps first-appearance order). -/
def addCat (acc : List String) (s : String) : List String :=
  if s ∈ acc then acc else acc ++ [s]

/-- Fold a list of categories into an ordered category set, keeping the
first-appearance order relative to the accumulator `acc`. -/
def dedupFA (acc : List String) (l : List String) : List String :=
  l.foldl addCat acc

/-- Modelled from the spec (§4.6): the local ordered set of distinct
category values of one partition's column slice, rows visited in row
order. -/
def localCats (cells : List Cell) : List String := dedupFA [] (catsOf cells)

/-- Modelled from the spec (§4.6, §9): the dedicated order-stable set-union
reduction across parties — parties are visited in table partition order. -/
def unionCats (sets : List (List String)) : List String :=
  sets.foldl dedupFA []

/-- Modelled from the spec (§4.6): OneHotEncoder `fit` on a column layout —
collect the local distinct-category set per partition, then union them into
one global, order-stable category list (first global appearance). -/
def oneHotFitParts (parts : List (List Cell)) : List String :=
  unionCats (parts.map localCats)

/-- Modelled from the spec (§4.6): the names of the produced binary
columns, `"<column>_<c>"`, in fitted category order. -/
def oneHotNames (name : String) (cats : List String) : List String :=
  cats.map (fun c => name ++ "_" ++ c)

/-- Modelled from the spec (§4.6): the binary cells a single original cell
is mapped to — 1 where the original equals the category, else 0; a category
unseen at fit time yields all zeros (documented policy, not an error). -/
def oneHotRowCells (cats : List String) (x : Cell) : List Cell :=
  cats.map (fun c => Cell.num (if x = Cell.cat c then 1 else 0))

/-- Modelled from the spec (§4.6): OneHotEncoder `transform` of one column
slice; never fails (the unseen-category case degrades silently to zeros). -/
def oneHotTransformCol (cats : List String) (col : List Cell) :
    Except PError (List (List Cell)) :=
  Except.ok (col.map (oneHotRowCells cats))

/-- Modelled from the spec (§4.6): `fit_transform` of OneHotEncoder on a
column layout: the original column is dropped and replaced by the binary
columns (names in fitted category order, per-partition row blocks). -/
def oneHotFitTransform (name : String) (parts : List (List Cell)) :
    Except PError (List String × List (List (List Cell))) :=
  let cats := oneHotFitParts parts
  Except.ok (oneHotNames name cats, parts.map (List.map (oneHotRowCells cats)))

/-- Modelled from the spec (§4.7): LabelEncoder `fit` — identical
category-collection and ordering logic as OneHotEncoder. -/
def labelFitParts (parts : List (List Cell)) : List String :=
  oneHotFitParts parts

/-- 0-based position of the first occurrence of a name in a list, `none`
when absent. -/
def idxOf? (l : List String) (c : String) : Option Nat :=
  match l with
  | [] => none
  | n :: rest => if n = c then some 0 else (idxOf? rest c).map (· + 1)

/-- Modelled from the spec (§4.7): the LabelEncoder elementwise transform —
each category cell is replaced by its 0-based position in the globally
ordered category list; a category unseen at fit time fails with
`UnseenCategoryError`. -/
def labelTransformCell (cats : List String) : Cell → Except PError Cell
  | Cell.cat s =>
    match idxOf? cats s with
    | some i => Except.ok (Cell.num i)
    | none => Except.error PError.UnseenCategoryError
  | c => Except.ok c

/-- Modelled from the spec (§4.7): LabelEncoder `transform` of one column
slice (column name and position unchanged; only the cells are encoded);
the first unseen category encountered aborts the transform. -/
def labelTransformCol (cats : List String) : List Cell → Except PError (List Cell)
  | [] => Except.ok []
  | x :: xs =>
    match labelTransformCell cats x, labelTransformCol cats xs with
    | Except.ok y, Except.ok ys => Except.ok (y :: ys)
    | Except.error e, _ => Except.error e
    | _, Except.error e => Except.error e

/-- LabelEncoder `transform` applied to every partition's slice of the
column, in partition order. -/
def labelTransformParts (cats : List String) :
    List (List Cell) → Except PError (List (List Cell))
  | [] => Except.ok []
  | p :: ps =>
    match labelTransformCol cats p, labelTransformParts cats ps with
    | Except.ok q, Except.ok qs => Except.ok (q :: qs)
    | Except.error e, _ => Except.error e
    | _, Except.error e => Except.error e

/-- Modelled from the spec (§4.7): `fit_transform` of LabelEncoder on a
column layout. -/
def labelFitTransform (parts : List (List Cell)) :
    Except PError (List (List Cell)) :=
  labelTransformParts (labelFitParts parts) parts

/-! ### FillNa (cell-level characterization) -/

/-- The pointwise effect FillNa is specified to have on a cell of column
`c` under fill map `m` (§4.4): a missing cell of a mapped column becomes
the supplied fill value; every other cell is untouched. -/
def fillCell (m : List (String × Cell)) (c : String) (x : Cell) : Cell :=
  match m.lookup c with
  | some v => if x = Cell.missing then v else x
  | none => x

/-! ### Table-level data model -/

/-- Modelled from the spec (§3): ROW-SPLIT (horizontal) vs COLUMN-SPLIT
(vertical) partitioning of the logical dataset. -/
inductive PKind where
  | rowSplit
  | colSplit
deriving DecidableEq, Repr

/-- Modelled from the spec (§3): one party's physical block — owning party
identifier, named columns, and a 2-D block of cells (rows of cells, one per
column). -/
structure Partition where
  party : String
  cols : List String
  rows : List (List Cell)
deriving DecidableEq, Repr

/-- Modelled from the spec (§3, §6): the logical dataset — partition kind,
ordered partitions, and the injected Aggregator/Comparator capabilities
(absent when the caller supplied none, as `v_read_csv` permits). -/
structure PTable where
  kind : PKind
  parts : List Partition
  agg : Option Aggregator
  cmp : Option Comparator

/-- The values of a named column inside one partition (row order), when the
partition holds that column. -/
def Partition.colValues (p : Partition) (c : String) : Option (List Cell) :=
  (idxOf? p.cols c).map
    (fun i => p.rows.map (fun r => r.getD i Cell.missing))

/-- Modelled from the spec (§4.3): `columns()` — the partition-ordered
union of column names (shared list for ROW-SPLIT, disjoint union for
COLUMN-SPLIT). -/
def tableColumns (t : PTable) : List String :=
  (t.parts.map Partition.cols).flatten

/-- Modelled from the spec (§4.3): `column_local_values(column)` — the
per-party slices of one logical column, in table partition order (only the
partitions holding the column contribute). -/
def tableColParts (t : PTable) (c : String) : List (List Cell) :=
  t.parts.filterMap (fun p => p.colValues c)

/-- Modelled from the spec: `v_read_csv` builds a COLUMN-SPLIT table and
takes no Aggregator/Comparator argument at all. -/
def v_make (parts : List Partition) : PTable :=
  ⟨PKind.colSplit, parts, none, none⟩

/-- Modelled from the spec (§6 and the notebook's `h_read_csv` call):
building a ROW-SPLIT table requires both an Aggregator and a Comparator at
construction. -/
def h_make (parts : List Partition) (agg : Option Aggregator)
    (cmp : Option Comparator) : Except PError PTable :=
  match agg, cmp with
  | some a, some c => Except.ok ⟨PKind.rowSplit, parts, some a, some c⟩
  | _, _ => Except.error PError.MissingCapability

/-! ### FillNa at table level -/

/-- Replace the cell at column index `i` of a row by the fill value when it
is missing, leaving it unchanged otherwise. -/
def fillRowAt (i : Nat) (v : Cell) (r : List Cell) : List Cell :=
  r.set i (if r.getD i Cell.missing = Cell.missing then v else r.getD i Cell.missing)

/-- Fill one named column of one partition in place; a partition not
holding the column is untouched. -/
def fillColPart (c : String) (v : Cell) (p : Partition) : Partition :=
  match idxOf? p.cols c with
  | none => p
  | some i => { p with rows := p.rows.map (fillRowAt i v) }

/-- Modelled from the spec (§4.4): for each column in the fill map, replace
missing cells with the given value in-place per partition. -/
def fillnaParts (m : List (String × Cell)) (ps : List Partition) :
    List Partition :=
  m.foldl (fun acc cv => acc.map (fillColPart cv.1 cv.2)) ps

/-- Modelled from the spec (§4.4): FillNa `transform` (`fit` is a no-op;
the fill map is supplied by the caller).  Fails with `UnknownColumnError`
when a fill-map key does not exist in the table. -/
def fillna (t : PTable) (m : List (String × Cell)) : Except PError PTable :=
  if m.all (fun cv => cv.1 ∈ tableColumns t) then
    Except.ok { t with parts := fillnaParts m t.parts }
  else Except.error PError.UnknownColumnError

/-! ### Table-level fit/transform orchestration

Modelled from the spec (§4.8): the Orchestrator requests local statistics
from every partition holding the column, reduces them across parties, and
broadcasts the reduced state back for the elementwise transform.  When the
column resides wholly with one party (always the case for a well-formed
COLUMN-SPLIT table) the statistic is already global and no cross-party
reduction — hence no Aggregator/Comparator capability — is needed. -/

/-- MinMaxScaler `fit` on a table column.  A cross-party reduction without
a Comparator capability, or a reduction with an empty input set, fails with
`ComparisonError`; a column not in the table fails with
`UnknownColumnError`. -/
def minmaxFitTable (t : PTable) (c : String) : Except PError (ℚ × ℚ) :=
  match tableColParts t c with
  | [] => Except.error PError.UnknownColumnError
  | [single] =>
    match localMin single, localMax single with
    | some mn, some mx => Except.ok (mn, mx)
    | _, _ => Except.error PError.ComparisonError
  | parts =>
    match t.cmp with
    | none => Except.error PError.ComparisonError
    | some _ =>
      match minmaxFitParts parts with
      | some st => Except.ok st
      | none => Except.error PError.ComparisonError

/-- MinMaxScaler `fit_transform` on a table column: the fitted (min, max)
is broadcast and applied elementwise to every partition's slice; the
transformed slices are returned in table partition order. -/
def minmaxFitTransformTable (t : PTable) (c : String) :
    Except PError (List (List Cell)) :=
  match minmaxFitTable t c with
  | Except.error e => Except.error e
  | Except.ok st =>
    Except.ok ((tableColParts t c).map (List.map (scaleCell st.1 st.2)))

/-- Category fit on a table column: local collection per partition, with a
cross-party set-union reduction (requiring the Aggregator capability) only
when more than one party holds the column. -/
def catFitTable (t : PTable) (c : String) : Except PError (List String) :=
  match tableColParts t c with
  | [] => Except.error PError.UnknownColumnError
  | [single] => Except.ok (localCats single)
  | parts =>
    match t.agg with
    | none => Except.error PError.AggregationError
    | some _ => Except.ok (unionCats (parts.map localCats))

/-- OneHotEncoder `fit_transform` on a table column. -/
def oneHotFitTransformTable (t : PTable) (c : String) :
    Except PError (List String × List (List (List Cell))) :=
  match catFitTable t c with
  | Except.error e => Except.error e
  | Except.ok cats =>
    Except.ok (oneHotNames c cats,
      (tableColParts t c).map (List.map (oneHotRowCells cats)))

/-- LabelEncoder `fit_transform` on a table column. -/
def labelFitTransformTable (t : PTable) (c : String) :
    Except PError (List (List Cell)) :=
  match catFitTable t c with
  | Except.error e => Except.error e
  | Except.ok cats => labelTransformParts cats (tableColParts t c)

/-- Modelled from the spec (§4.4): the elementwise effect of FillNa on the
single target column with fill value `v`. -/
def fillTransformCol (v : Cell) (col : List Cell) : List Cell :=
  col.map (fun x => if x = Cell.missing then v else x)

/-- Placeholder partition used as a `getD` default. -/
def defPart : Partition := ⟨"", [], []⟩

/-- The cell of a partition at row `j`, column index `k`. -/
def cellAt (p : Partition) (j k : Nat) : Cell :=
  (p.rows.getD j []).getD k Cell.missing

/-- Rectangularity of one partition: duplicate-free column names and rows
matching the column count. -/
def Partition.wf (p : Partition) : Prop :=
  p.cols.Nodup ∧ ∀ r ∈ p.rows, r.length = p.cols.length

instance (p : Partition) : Decidable p.wf :=
  inferInstanceAs (Decidable
    (p.cols.Nodup ∧ ∀ r ∈ p.rows, r.length = p.cols.length))

/-- The fill map applied entry by entry to one partition. -/
def fillPartAll (m : List (String × Cell)) (p : Partition) : Partition :=
  m.foldl (fun q cv => fillColPart cv.1 cv.2 q) p

/-- A small COLUMN-SPLIT table used to witness concrete evaluations. -/
def sampleTable : PTable :=
  ⟨PKind.colSplit,
   [⟨"alice", ["a"], [[Cell.num 1], [Cell.missing]]⟩,
    ⟨"bob", ["b"], [[Cell.cat "x"], [Cell.num 2]]⟩],
   none, none⟩

/-- A fill map touching only column `a` of `sampleTable`. -/
def sampleFill : List (String × Cell) := [("a", Cell.num 10)]

/-! ### Lemmas: min/max reduction -/

lemma optMin_none_right (a : Option ℚ) : optMin a none = a := by
  cases a <;> rfl

lemma optMax_none_right (a : Option ℚ) : optMax a none = a := by
  cases a <;> rfl

lemma optMin_assoc (a b c : Option ℚ) :
    optMin (optMin a b) c = optMin a (optMin b c) := by
  cases a <;> cases b <;> cases c <;> simp [optMin, min_assoc]

lemma optMax_assoc (a b c : Option ℚ) :
    optMax (optMax a b) c = optMax a (optMax b c) := by
  cases a <;> cases b <;> cases c <;> simp [optMax, max_assoc]

lemma foldl_min_comm (l : List ℚ) : ∀ m y : ℚ,
    l.foldl min (min m y) = min m (l.foldl min y) := by
  induction l with
  | nil => intro m y; rfl
  | cons z l ih =>
    intro m y
    show l.foldl min (min (min m y) z) = _
    rw [min_assoc, ih]
    rfl

lemma foldl_max_comm (l : List ℚ) : ∀ m y : ℚ,
    l.foldl max (max m y) = max m (l.foldl max y) := by
  induction l with
  | nil => intro m y; rfl
  | cons z l ih =>
    intro m y
    show l.foldl max (max (max m y) z) = _
    rw [max_assoc, ih]
    rfl

lemma foldMin_append (a b : List ℚ) :
    foldMin (a ++ b) = optMin (foldMin a) (foldMin b) := by
  cases a with
  | nil => simp [foldMin, optMin]
  | cons x a =>
    cases b with
    | nil => simp [foldMin, optMin_none_right]
    | cons y b =>
      show foldMin (x :: (a ++ y :: b)) = _
      simp only [foldMin, optMin, List.foldl_append]
      rw [show (y :: b).foldl min (a.foldl min x) =
          b.foldl min (min (a.foldl min x) y) from rfl,
        foldl_min_comm]

lemma foldMax_append (a b : List ℚ) :
    foldMax (a ++ b) = optMax (foldMax a) (foldMax b) := by
  cases a with
  | nil => simp [foldMax, optMax]
  | cons x a =>
    cases b with
    | nil => simp [foldMax, optMax_none_right]
    | cons y b =>
      show foldMax (x :: (a ++ y :: b)) = _
      simp only [foldMax, optMax, List.foldl_append]
      rw [show (y :: b).foldl max (a.foldl max x) =
          b.foldl max (max (a.foldl max x) y) from rfl,
        foldl_max_comm]

lemma nums_append (a b : List Cell) : nums (a ++ b) = nums a ++ nums b :=
  List.filterMap_append a b cellNum?

lemma catsOf_append (a b : List Cell) :
    catsOf (a ++ b) = catsOf a ++ catsOf b :=
  List.filterMap_append a b cellCat?

lemma localMin_append (a b : List Cell) :
    localMin (a ++ b) = optMin (localMin a) (localMin b) := by
  simp [localMin, nums_append, foldMin_append]

lemma localMax_append (a b : List Cell) :
    localMax (a ++ b) = optMax (localMax a) (localMax b) := by
  simp [localMax, nums_append, foldMax_append]

lemma foldl_optMin_localMin (ls : List (List Cell)) : ∀ acc : Option ℚ,
    ls.foldl (fun a p => optMin a (localMin p)) acc =
      optMin acc (localMin ls.flatten) := by
  induction ls with
  | nil => intro acc; simp [localMin, nums, foldMin, optMin_none_right]
  | cons p ls ih =>
    intro acc
    show ls.foldl _ (optMin acc (localMin p)) = _
    rw [ih, optMin_assoc, List.flatten_cons, localMin_append]

lemma foldl_optMax_localMax (ls : List (List Cell)) : ∀ acc : Option ℚ,
    ls.foldl (fun a p => optMax a (localMax p)) acc =
      optMax acc (localMax ls.flatten) := by
  induction ls with
  | nil => intro acc; simp [localMax, nums, foldMax, optMax_none_right]
  | cons p ls ih =>
    intro acc
    show ls.foldl _ (optMax acc (localMax p)) = _
    rw [ih, optMax_assoc, List.flatten_cons, localMax_append]

/-- The Comparator reduction of per-partition minima equals the minimum of
the realigned logical column. -/
lemma reduceMinO_map_localMin (parts : List (List Cell)) :
    reduceMinO (parts.map localMin) = localMin parts.flatten := by
  rw [reduceMinO, List.foldl_map, foldl_optMin_localMin]
  rfl

lemma reduceMaxO_map_localMax (parts : List (List Cell)) :
    reduceMaxO (parts.map localMax) = localMax parts.flatten := by
  rw [reduceMaxO, List.foldl_map, foldl_optMax_localMax]
  rfl

/-- Fitting MinMaxScaler on any layout of a column computes the same state
as fitting on the one-block (COLUMN-SPLIT) layout of the realigned
column. -/
lemma minmaxFitParts_eq_flatten (parts : List (List Cell)) :
    minmaxFitParts parts = minmaxFitParts [parts.flatten] := by
  unfold minmaxFitParts
  rw [reduceMinO_map_localMin, reduceMaxO_map_localMax]
  rw [show [parts.flatten].map localMin = [localMin parts.flatten] from rfl,
    show [parts.flatten].map localMax = [localMax parts.flatten] from rfl]
  rw [show reduceMinO [localMin parts.flatten] =
      optMin none (localMin parts.flatten) from rfl]
  rw [show reduceMaxO [localMax parts.flatten] =
      optMax none (localMax parts.flatten) from rfl]
  rfl

lemma foldl_min_le_init (l : List ℚ) : ∀ x : ℚ, l.foldl min x ≤ x := by
  induction l with
  | nil => intro x; exact le_refl x
  | cons z l ih =>
    intro x
    exact le_trans (ih (min x z)) (min_le_left x z)

lemma foldl_min_le_mem (l : List ℚ) : ∀ x q : ℚ, q ∈ l → l.foldl min x ≤ q := by
  induction l with
  | nil => intro x q hq; cases hq
  | cons z l ih =>
    intro x q hq
    rcases List.mem_cons.1 hq with h | h
    · subst h
      exact le_trans (foldl_min_le_init l (min x q)) (min_le_right x q)
    · exact ih (min x z) q h

lemma foldl_max_init_le (l : List ℚ) : ∀ x : ℚ, x ≤ l.foldl max x := by
  induction l with
  | nil => intro x; exact le_refl x
  | cons z l ih =>
    intro x
    exact le_trans (le_max_left x z) (ih (max x z))

lemma foldl_max_mem_le (l : List ℚ) : ∀ x q : ℚ, q ∈ l → q ≤ l.foldl max x := by
  induction l with
  | nil => intro x q hq; cases hq
  | cons z l ih =>
    intro x q hq
    rcases List.mem_cons.1 hq with h | h
    · subst h
      exact le_trans (le_max_right x q) (foldl_max_init_le l (max x q))
    · exact ih (max x z) q h

lemma foldMin_le_of_mem {l : List ℚ} {m q : ℚ} (hm : foldMin l = some m)
    (hq : q ∈ l) : m ≤ q := by
  cases l with
  | nil => cases hq
  | cons x xs =>
    have hmx : m = xs.foldl min x := by
      simpa [foldMin] using hm.symm
    subst hmx
    rcases List.mem_cons.1 hq with h | h
    · subst h; exact foldl_min_le_init xs q
    · exact foldl_min_le_mem xs x q h

lemma le_foldMax_of_mem {l : List ℚ} {m q : ℚ} (hm : foldMax l = some m)
    (hq : q ∈ l) : q ≤ m := by
  cases l with
  | nil => cases hq
  | cons x xs =>
    have hmx : m = xs.foldl max x := by
      simpa [foldMax] using hm.symm
    subst hmx
    rcases List.mem_cons.1 hq with h | h
    · subst h; exact foldl_max_init_le xs q
    · exact foldl_max_mem_le xs x q h

/-! ### Lemmas: ordered category sets -/

lemma mem_addCat {acc : List String} {a s : String} :
    s ∈ addCat acc a ↔ s ∈ acc ∨ s = a := by
  unfold addCat
  by_cases h : a ∈ acc
  · simp only [if_pos h]
    constructor
    · exact fun hs => Or.inl hs
    · rintro (hs | hs)
      · exact hs
      · exact hs ▸ h
  · simp [if_neg h]

lemma mem_dedupFA (l : List String) : ∀ (acc : List String) (s : String),
    s ∈ dedupFA acc l ↔ s ∈ acc ∨ s ∈ l := by
  induction l with
  | nil => intro acc s; simp [dedupFA]
  | cons x l ih =>
    intro acc s
    show s ∈ dedupFA (addCat acc x) l ↔ _
    rw [ih]
    rw [mem_addCat]
    constructor
    · rintro ((h | h) | h)
      · exact Or.inl h
      · exact Or.inr (h ▸ List.mem_cons_self x l)
      · exact Or.inr (List.mem_cons_of_mem x h)
    · rintro (h | h)
      · exact Or.inl (Or.inl h)
      · rcases List.mem_cons.1 h with h | h
        · exact Or.inl (Or.inr h)
        · exact Or.inr h

lemma dedupFA_append (acc : List String) (l₁ l₂ : List String) :
    dedupFA acc (l₁ ++ l₂) = dedupFA (dedupFA acc l₁) l₂ :=
  List.foldl_append addCat acc l₁ l₂

lemma dedupFA_addCat (b acc : List String) (x : String) :
    dedupFA b (addCat acc x) = addCat (dedupFA b acc) x := by
  by_cases h : x ∈ acc
  · rw [show addCat acc x = acc from if_pos h]
    have hx : x ∈ dedupFA b acc := (mem_dedupFA acc b x).2 (Or.inr h)
    rw [show addCat (dedupFA b acc) x = dedupFA b acc from if_pos hx]
  · rw [show addCat acc x = acc ++ [x] from if_neg h, dedupFA_append]
    rfl

lemma dedupFA_dedupFA (l : List String) : ∀ acc b : List String,
    dedupFA b (dedupFA acc l) = dedupFA (dedupFA b acc) l := by
  induction l with
  | nil => intro acc b; rfl
  | cons x l ih =>
    intro acc b
    show dedupFA b (dedupFA (addCat acc x) l) = dedupFA (dedupFA b acc) (x :: l)
    rw [ih, dedupFA_addCat]
    rfl

lemma foldl_dedupFA_localCats (parts : List (List Cell)) : ∀ b : List String,
    (parts.map localCats).foldl dedupFA b = dedupFA b (catsOf parts.flatten) := by
  induction parts with
  | nil => intro b; rfl
  | cons p parts ih =>
    intro b
    show (parts.map localCats).foldl dedupFA (dedupFA b (localCats p)) = _
    rw [ih, localCats, dedupFA_dedupFA]
    rw [show dedupFA b [] = b from rfl, List.flatten_cons, catsOf_append,
      dedupFA_append]

/-- Fitting the category list on any layout of a column computes the same
first-global-appearance category list as a scan of the realigned logical
column. -/
lemma oneHotFitParts_eq_flatten (parts : List (List Cell)) :
    oneHotFitParts parts = localCats parts.flatten := by
  rw [oneHotFitParts, unionCats, foldl_dedupFA_localCats]
  rfl

lemma nodup_addCat {acc : List String} (h : acc.Nodup) (a : String) :
    (addCat acc a).Nodup := by
  unfold addCat
  by_cases ha : a ∈ acc
  · simpa [if_pos ha] using h
  · rw [if_neg ha]
    exact List.nodup_append.2 ⟨h, List.nodup_singleton a,
      fun x hx hx1 => ha ((List.mem_singleton.1 hx1) ▸ hx)⟩

lemma nodup_dedupFA (l : List String) : ∀ acc : List String,
    acc.Nodup → (dedupFA acc l).Nodup := by
  induction l with
  | nil => intro acc h; exact h
  | cons x l ih =>
    intro acc h
    exact ih (addCat acc x) (nodup_addCat h x)

lemma nodup_localCats (cells : List Cell) : (localCats cells).Nodup :=
  nodup_dedupFA (catsOf cells) [] List.nodup_nil

lemma nodup_oneHotFitParts (parts : List (List Cell)) :
    (oneHotFitParts parts).Nodup := by
  rw [oneHotFitParts_eq_flatten]
  exact nodup_localCats parts.flatten

lemma mem_localCats {cells : List Cell} {s : String} :
    s ∈ localCats cells ↔ s ∈ catsOf cells := by
  rw [localCats, mem_dedupFA]
  simp

/-! ### Lemmas: index lookup -/

lemma idxOf?_of_mem (l : List String) (c : String) (h : c ∈ l) :
    ∃ i, idxOf? l c = some i ∧ i < l.length := by
  induction l with
  | nil => cases h
  | cons x l ih =>
    by_cases hx : x = c
    · exact ⟨0, by simp [idxOf?, hx], Nat.succ_pos _⟩
    · have hc : c ∈ l := by
        rcases List.mem_cons.1 h with h1 | h1
        · exact absurd h1.symm hx
        · exact h1
      rcases ih hc with ⟨i, hi, hlen⟩
      exact ⟨i + 1, by simp [idxOf?, hx, hi], Nat.succ_lt_succ hlen⟩

lemma idxOf?_none_of_not_mem {l : List String} {c : String} (h : c ∉ l) :
    idxOf? l c = none := by
  induction l with
  | nil => rfl
  | cons x l ih =>
    have hx : ¬x = c := fun hc => h (hc ▸ List.mem_cons_self x l)
    have hc : c ∉ l := fun hc => h (List.mem_cons_of_mem x hc)
    simp [idxOf?, hx, ih hc]

lemma idxOf?_some_getElem {l : List String} {c : String} {i : Nat}
    (h : idxOf? l c = some i) : ∃ hlt : i < l.length, l[i] = c := by
  induction l generalizing i with
  | nil => cases h
  | cons x l ih =>
    by_cases hx : x = c
    · have : i = 0 := by
        simpa [idxOf?, hx] using h.symm
      subst this
      exact ⟨Nat.succ_pos _, hx⟩
    · have h' : (idxOf? l c).map (· + 1) = some i := by
        simpa [idxOf?, hx] using h
      rcases Option.map_eq_some'.1 h' with ⟨j, hj, hij⟩
      rcases ih hj with ⟨hlt, hget⟩
      subst hij
      exact ⟨Nat.succ_lt_succ hlt, hget⟩

/-- In a duplicate-free list, the element at position `i` is looked up at
exactly position `i`. -/
lemma idxOf?_getElem_of_nodup (l : List String) (hnd : l.Nodup) :
    ∀ (i : Nat) (h : i < l.length), idxOf? l (l[i]) = some i := by
  induction l with
  | nil => intro i h; cases h
  | cons x l ih =>
    intro i h
    cases i with
    | zero => simp [idxOf?]
    | succ j =>
      have hj : j < l.length := Nat.lt_of_succ_lt_succ h
      have hmem : l[j] ∈ l := List.getElem_mem hj
      have hx : ¬x = l[j] := by
        intro hc
        exact (List.nodup_cons.1 hnd).1 (hc ▸ hmem)
      rw [List.getElem_cons_succ]
      simp [idxOf?, hx, ih (List.nodup_cons.1 hnd).2 j hj]

/-! ### Lemmas: extracting the fitted min/max -/

lemma minmaxFitParts_some {parts : List (List Cell)} {mn mx : ℚ}
    (h : minmaxFitParts parts = some (mn, mx)) :
    localMin parts.flatten = some mn ∧ localMax parts.flatten = some mx := by
  unfold minmaxFitParts at h
  rcases hmn : reduceMinO (parts.map localMin) with _ | a
  · rw [hmn] at h; cases h
  · rcases hmx : reduceMaxO (parts.map localMax) with _ | b
    · rw [hmn, hmx] at h; cases h
    · rw [hmn, hmx] at h
      have hab : a = mn ∧ b = mx := by
        constructor <;> [exact (Prod.mk.injEq _ _ _ _ ▸ Option.some.inj h).1;
          exact (Prod.mk.injEq _ _ _ _ ▸ Option.some.inj h).2]
      rw [← reduceMinO_map_localMin, hmn, ← reduceMaxO_map_localMax, hmx,
        hab.1, hab.2]
      exact ⟨rfl, rfl⟩

lemma fitted_min_le {parts : List (List Cell)} {mn mx q : ℚ}
    (h : minmaxFitParts parts = some (mn, mx)) (hq : q ∈ nums parts.flatten) :
    mn ≤ q :=
  foldMin_le_of_mem (minmaxFitParts_some h).1 hq

lemma le_fitted_max {parts : List (List Cell)} {mn mx q : ℚ}
    (h : minmaxFitParts parts = some (mn, mx)) (hq : q ∈ nums parts.flatten) :
    q ≤ mx :=
  le_foldMax_of_mem (minmaxFitParts_some h).2 hq

/-- C2: MinMaxScaler range and endpoint attainment — for every fitted
column layout with global min strictly below global max, `fit_transform`
succeeds, every numeric value of the column is mapped to
`(q - min) / (max - min)`, every such transformed value lies in the closed
interval `[0, 1]`, a value equal to the fitted maximum is mapped to exactly
1, and a value equal to the fitted minimum is mapped to exactly 0. -/
theorem C2_minmax_range_endpoints (parts : List (List Cell)) (mn mx : ℚ)
    (hfit : minmaxFitParts parts = some (mn, mx)) (hlt : mn < mx) :
    minmaxFitTransform parts =
      Except.ok (parts.map (List.map (scaleCell mn mx))) ∧
    ∀ q ∈ nums parts.flatten,
      scaleCell mn mx (Cell.num q) = Cell.num ((q - mn) / (mx - mn)) ∧
      0 ≤ (q - mn) / (mx - mn) ∧ (q - mn) / (mx - mn) ≤ 1 ∧
      (q = mx → scaleCell mn mx (Cell.num q) = Cell.num 1) ∧
      (q = mn → scaleCell mn mx (Cell.num q) = Cell.num 0) := by
  have hne : ¬mx = mn := ne_of_gt hlt
  have hpos : 0 < mx - mn := sub_pos.2 hlt
  constructor
  · rw [minmaxFitTransform, hfit]
  · intro q hq
    have hmn : mn ≤ q := fitted_min_le hfit hq
    have hmx : q ≤ mx := le_fitted_max hfit hq
    refine ⟨by simp [scaleCell, hne], ?_, ?_, ?_, ?_⟩
    · exact div_nonneg (sub_nonneg.2 hmn) (le_of_lt hpos)
    · exact (div_le_one hpos).2 (sub_le_sub_right hmx mn)
    · intro hqe
      subst hqe
      simp [scaleCell, hne, div_self (ne_of_gt hpos)]
    · intro hqe
      subst hqe
      simp [scaleCell, hne]

/-- Witness for C2 on the layout `[[num 1, missing], [num 3]]`. -/
theorem C2_minmax_range_endpoints_witness :
    minmaxFitParts [[Cell.num 1, Cell.missing], [Cell.num 3]] = some (1, 3) ∧
    (minmaxFitTransform [[Cell.num 1, Cell.missing], [Cell.num 3]] =
      Except.ok ([[Cell.num 1, Cell.missing], [Cell.num 3]].map
        (List.map (scaleCell 1 3))) ∧
    ∀ q ∈ nums [[Cell.num 1, Cell.missing], [Cell.num 3]].flatten,
      scaleCell 1 3 (Cell.num q) = Cell.num ((q - 1) / (3 - 1)) ∧
      0 ≤ (q - 1) / (3 - 1) ∧ (q - 1) / (3 - 1) ≤ 1 ∧
      (q = 3 → scaleCell 1 3 (Cell.num q) = Cell.num 1) ∧
      (q = 1 → scaleCell 1 3 (Cell.num q) = Cell.num 0)) :=
  ⟨by decide, C2_minmax_range_endpoints
    [[Cell.num 1, Cell.missing], [Cell.num 3]] 1 3 (by decide) (by decide)⟩

/-- C3: MinMaxScaler degenerate column — when the fitted global max equals
the fitted global min, `fit_transform` does not fail: it returns the layout
with every numeric cell mapped to 0 (the guarded branch never divides), all
other cells untouched. -/
theorem C3_minmax_degenerate (parts : List (List Cell)) (mn mx : ℚ)
    (hfit : minmaxFitParts parts = some (mn, mx)) (heq : mx = mn) :
    minmaxFitTransform parts =
      Except.ok (parts.map (List.map (fun c =>
        match c with
        | Cell.num _ => Cell.num 0
        | c => c))) := by
  rw [minmaxFitTransform, hfit]
  show Except.ok (parts.map (List.map (scaleCell mn mx))) = _
  have hsc : scaleCell mn mx = fun c =>
      match c with
      | Cell.num _ => Cell.num 0
      | c => c := by
    funext c
    cases c with
    | num q => simp [scaleCell, heq]
    | cat s => rfl
    | missing => rfl
  rw [hsc]

/-- Witness for C3 on the degenerate layout `[[num 2], [num 2, missing]]`. -/
theorem C3_minmax_degenerate_witness :
    minmaxFitParts [[Cell.num 2], [Cell.num 2, Cell.missing]] = some (2, 2) ∧
    minmaxFitTransform [[Cell.num 2], [Cell.num 2, Cell.missing]] =
      Except.ok ([[Cell.num 2], [Cell.num 2, Cell.missing]].map (List.map (fun c =>
        match c with
        | Cell.num _ => Cell.num 0
        | c => c))) :=
  ⟨by decide, C3_minmax_degenerate [[Cell.num 2], [Cell.num 2, Cell.missing]]
    2 2 (by decide) (by decide)⟩

/-- C8: Aggregator order-independence — permuting the order in which the
per-party inputs are visited leaves the result of `aggregate` unchanged
(the plaintext reduction is a sum, an order-independent operator; an empty
input set fails identically under any permutation). -/
theorem C8_aggregator_order_independence (l₁ l₂ : List (String × ℚ))
    (hperm : l₁.Perm l₂) :
    PlainAggregator.aggregate l₁ = PlainAggregator.aggregate l₂ := by
  cases l₁ with
  | nil =>
    rw [hperm.symm.eq_nil]
  | cons x xs =>
    cases l₂ with
    | nil => exact absurd hperm.eq_nil (List.cons_ne_nil x xs)
    | cons y ys =>
      show Except.ok ((List.map Prod.snd (x :: xs)).sum) =
        Except.ok ((List.map Prod.snd (y :: ys)).sum)
      rw [(hperm.map Prod.snd).sum_eq]

/-- Witness for C8: two parties visited in either order. -/
theorem C8_aggregator_order_independence_witness :
    PlainAggregator.aggregate [("alice", (1 : ℚ)), ("bob", 2)] =
      PlainAggregator.aggregate [("bob", (2 : ℚ)), ("alice", 1)] :=
  C8_aggregator_order_independence _ _ (by decide)

/-! ### Lemmas: one-hot rows and label cells -/

lemma oneHotRowCells_getD (cats : List String) (x : Cell) (i : Nat)
    (h : i < cats.length) :
    (oneHotRowCells cats x).getD i Cell.missing =
      Cell.num (if x = Cell.cat (cats.get ⟨i, h⟩) then 1 else 0) := by
  rw [oneHotRowCells, List.getD_eq_getElem?_getD, List.getElem?_map,
    List.getElem?_eq_getElem h]
  rfl

lemma labelTransformCell_cat (cats : List String) (s : String) :
    labelTransformCell cats (Cell.cat s) =
      (match idxOf? cats s with
       | some i => Except.ok (Cell.num i)
       | none => Except.error PError.UnseenCategoryError) := rfl

lemma labelTransformCell_error {cats : List String} {x : Cell} {e : PError}
    (h : labelTransformCell cats x = Except.error e) :
    e = PError.UnseenCategoryError := by
  cases x with
  | num q => cases h
  | missing => cases h
  | cat s =>
    rw [labelTransformCell_cat] at h
    rcases hi : idxOf? cats s with _ | i
    · rw [hi] at h
      exact (Except.error.inj h).symm
    · rw [hi] at h
      cases h

lemma labelTransformCol_error_of_unseen {cats : List String} {s : String}
    (hs : s ∉ cats) : ∀ col : List Cell, Cell.cat s ∈ col →
    labelTransformCol cats col = Except.error PError.UnseenCategoryError := by
  intro col
  induction col with
  | nil => intro h; cases h
  | cons x xs ih =>
    intro hmem
    show (match labelTransformCell cats x, labelTransformCol cats xs with
      | Except.ok y, Except.ok ys => Except.ok (y :: ys)
      | Except.error e, _ => Except.error e
      | _, Except.error e => Except.error e) = _
    by_cases hx : x = Cell.cat s
    · subst hx
      rw [labelTransformCell_cat, idxOf?_none_of_not_mem hs]
      cases labelTransformCol cats xs <;> rfl
    · have hxs : Cell.cat s ∈ xs := by
        rcases List.mem_cons.1 hmem with h | h
        · exact absurd h.symm hx
        · exact h
      rcases hcell : labelTransformCell cats x with e | y
      · rw [labelTransformCell_error hcell]
        cases labelTransformCol cats xs <;> rfl
      · rw [ih hxs]

/-- C5: OneHotEncoder output naming and order — `fit_transform` replaces
the original column by one binary column per fitted category, named
`"<column>_<c>"`, the categories being ordered by first global appearance
(partitions visited in layout order, rows in row order, i.e. the scan of
the realigned logical column); each binary cell is 1 where the original
cell equals the category and 0 otherwise, and the original column name is
not among the produced names. -/
theorem C5_onehot_naming_order (name : String) (parts : List (List Cell)) :
    oneHotFitTransform name parts =
      Except.ok (oneHotNames name (oneHotFitParts parts),
        parts.map (List.map (oneHotRowCells (oneHotFitParts parts)))) ∧
    oneHotFitParts parts = localCats parts.flatten ∧
    oneHotNames name (oneHotFitParts parts) =
      (oneHotFitParts parts).map (fun c => name ++ "_" ++ c) ∧
    name ∉ oneHotNames name (oneHotFitParts parts) ∧
    ∀ x ∈ parts.flatten, ∀ (i : Nat) (h : i < (oneHotFitParts parts).length),
      (oneHotRowCells (oneHotFitParts parts) x).getD i Cell.missing =
        Cell.num (if x = Cell.cat ((oneHotFitParts parts).get ⟨i, h⟩)
          then 1 else 0) := by
  refine ⟨rfl, oneHotFitParts_eq_flatten parts, rfl, ?_, ?_⟩
  · intro hmem
    rcases List.mem_map.1 hmem with ⟨c, _, hc⟩
    have hlen : (name ++ "_" ++ c).length = name.length := by rw [hc]
    rw [String.length_append, String.length_append] at hlen
    have hone : ("_" : String).length = 1 := rfl
    omega
  · intro x _ i h
    exact oneHotRowCells_getD _ x i h

/-- Witness for C5 on the scenario layout
`[[cat setosa, cat setosa], [cat versicolor, cat virginica]]`. -/
theorem C5_onehot_naming_order_witness :
    oneHotFitTransform "target"
        [[Cell.cat "setosa", Cell.cat "setosa"],
         [Cell.cat "versicolor", Cell.cat "virginica"]] =
      Except.ok (["target_setosa", "target_versicolor", "target_virginica"],
        [[[Cell.num 1, Cell.num 0, Cell.num 0],
          [Cell.num 1, Cell.num 0, Cell.num 0]],
         [[Cell.num 0, Cell.num 1, Cell.num 0],
          [Cell.num 0, Cell.num 0, Cell.num 1]]]) ∧
    oneHotFitParts
        [[Cell.cat "setosa", Cell.cat "setosa"],
         [Cell.cat "versicolor", Cell.cat "virginica"]] =
      ["setosa", "versicolor", "virginica"] := by
  have h := C5_onehot_naming_order "target"
    [[Cell.cat "setosa", Cell.cat "setosa"],
     [Cell.cat "versicolor", Cell.cat "virginica"]]
  refine ⟨?_, by decide⟩
  rw [h.1]
  rfl

/-- C6: LabelEncoder code range and injectivity — the fitted category list
is duplicate-free; the code of the category at position `i` is exactly `i`
(so over the `k` fitted categories the codes are exactly the contiguous
integers `0 .. k-1`, witnessed by the map onto `List.range k`), and equal
codes force equal categories, so `transform` restricted to seen categories
is a bijection between categories and codes. -/
theorem C6_label_codes (parts : List (List Cell)) :
    (labelFitParts parts).Nodup ∧
    (∀ (i : Nat) (h : i < (labelFitParts parts).length),
      labelTransformCell (labelFitParts parts)
          (Cell.cat ((labelFitParts parts).get ⟨i, h⟩)) =
        Except.ok (Cell.num i)) ∧
    ((labelFitParts parts).map (fun s =>
        labelTransformCell (labelFitParts parts) (Cell.cat s)) =
      (List.range (labelFitParts parts).length).map (fun i : Nat =>
        Except.ok (Cell.num (i : ℚ)))) ∧
    (∀ (i j : Nat) (hi : i < (labelFitParts parts).length)
        (hj : j < (labelFitParts parts).length),
      labelTransformCell (labelFitParts parts)
          (Cell.cat ((labelFitParts parts).get ⟨i, hi⟩)) =
        labelTransformCell (labelFitParts parts)
          (Cell.cat ((labelFitParts parts).get ⟨j, hj⟩)) → i = j) := by
  have hnd : (labelFitParts parts).Nodup := nodup_oneHotFitParts parts
  have hcode : ∀ (i : Nat) (h : i < (labelFitParts parts).length),
      labelTransformCell (labelFitParts parts)
          (Cell.cat ((labelFitParts parts).get ⟨i, h⟩)) =
        Except.ok (Cell.num i) := by
    intro i h
    rw [labelTransformCell_cat,
      show ((labelFitParts parts).get ⟨i, h⟩) = (labelFitParts parts)[i]
        from rfl,
      idxOf?_getElem_of_nodup (labelFitParts parts) hnd i h]
  refine ⟨hnd, hcode, ?_, ?_⟩
  · apply List.ext_getElem
    · rw [List.length_map, List.length_map, List.length_range]
    · intro n h1 h2
      rw [List.getElem_map, List.getElem_map, List.getElem_range]
      have hn : n < (labelFitParts parts).length := by
        rw [List.length_map] at h1
        exact h1
      exact hcode n hn
  · intro i j hi hj hem
    rw [hcode i hi, hcode j hj] at hem
    have : ((i : ℚ)) = ((j : ℚ)) := Cell.num.inj (Except.ok.inj hem)
    exact Nat.cast_inj.1 this

/-- Witness for C6 on the layout `[[cat b], [cat a, cat b]]` (categories
fitted in first-appearance order `[b, a]`). -/
theorem C6_label_codes_witness :
    ([["b", "a"].get ⟨0, by decide⟩, ["b", "a"].get ⟨1, by decide⟩] =
      ["b", "a"]) ∧
    labelFitParts [[Cell.cat "b"], [Cell.cat "a", Cell.cat "b"]] = ["b", "a"] ∧
    labelTransformCell (labelFitParts [[Cell.cat "b"], [Cell.cat "a", Cell.cat "b"]])
        (Cell.cat ((labelFitParts [[Cell.cat "b"], [Cell.cat "a", Cell.cat "b"]]).get
          ⟨1, by decide⟩)) =
      Except.ok (Cell.num 1) :=
  ⟨by decide, by decide,
    (C6_label_codes [[Cell.cat "b"], [Cell.cat "a", Cell.cat "b"]]).2.1 1
      (by decide)⟩

/-- C7: unseen-category asymmetry at transform time — for any fitted
category list and any column containing a category value not in it,
LabelEncoder `transform` fails with `UnseenCategoryError`, whereas
OneHotEncoder `transform` succeeds on the same column, mapping the unseen
cell to all zeros across the one-hot columns. -/
theorem C7_unseen_category_asymmetry (cats : List String) (col : List Cell)
    (s : String) (hs : s ∉ cats) (hmem : Cell.cat s ∈ col) :
    labelTransformCol cats col = Except.error PError.UnseenCategoryError ∧
    oneHotTransformCol cats col = Except.ok (col.map (oneHotRowCells cats)) ∧
    oneHotRowCells cats (Cell.cat s) =
      List.replicate cats.length (Cell.num 0) := by
  refine ⟨labelTransformCol_error_of_unseen hs col hmem, rfl, ?_⟩
  rw [List.eq_replicate_iff]
  constructor
  · rw [oneHotRowCells, List.length_map]
  · intro b hb
    rcases List.mem_map.1 hb with ⟨c, hc, hbc⟩
    have hne : ¬Cell.cat s = Cell.cat c := by
      intro h
      exact hs ((Cell.cat.inj h) ▸ hc)
    rw [← hbc, if_neg hne]

/-- Witness for C7: category `c` unseen by the fitted list `[a, b]`. -/
theorem C7_unseen_category_asymmetry_witness :
    labelTransformCol ["a", "b"] [Cell.cat "a", Cell.cat "c"] =
      Except.error PError.UnseenCategoryError ∧
    oneHotTransformCol ["a", "b"] [Cell.cat "a", Cell.cat "c"] =
      Except.ok ([Cell.cat "a", Cell.cat "c"].map (oneHotRowCells ["a", "b"])) ∧
    oneHotRowCells ["a", "b"] (Cell.cat "c") =
      List.replicate (["a", "b"] : List String).length (Cell.num 0) :=
  C7_unseen_category_asymmetry ["a", "b"] [Cell.cat "a", Cell.cat "c"] "c"
    (by decide) (by decide)

/-! ### Lemmas: every fitted category occurs in the fit data -/

lemma exists_cell_of_mem_catsOf {cells : List Cell} {s : String}
    (h : s ∈ catsOf cells) : Cell.cat s ∈ cells := by
  rcases List.mem_filterMap.1 h with ⟨x, hx, hfx⟩
  cases x with
  | num q => cases hfx
  | missing => cases hfx
  | cat c =>
    have : c = s := Option.some.inj hfx
    exact this ▸ hx

lemma fitted_cat_mem {parts : List (List Cell)} {i : Nat}
    (h : i < (oneHotFitParts parts).length) :
    Cell.cat ((oneHotFitParts parts).get ⟨i, h⟩) ∈ parts.flatten := by
  apply exists_cell_of_mem_catsOf
  apply mem_localCats.1
  rw [← oneHotFitParts_eq_flatten]
  exact List.getElem_mem h

/-- C10: when OneHotEncoder is fit and transformed on the same layout,
every produced one-hot column attains the value 1 at some row (its
category occurs in the fit data), attains the value 0 at some row whenever
at least two categories were fitted, and every one-hot cell is the numeric
value 0 or the numeric value 1. -/
theorem C10_onehot_attains (parts : List (List Cell)) (i : Nat)
    (h : i < (oneHotFitParts parts).length) :
    (∃ x ∈ parts.flatten,
      (oneHotRowCells (oneHotFitParts parts) x).getD i Cell.missing =
        Cell.num 1) ∧
    (2 ≤ (oneHotFitParts parts).length →
      ∃ x ∈ parts.flatten,
        (oneHotRowCells (oneHotFitParts parts) x).getD i Cell.missing =
          Cell.num 0) ∧
    (∀ x ∈ parts.flatten,
      (oneHotRowCells (oneHotFitParts parts) x).getD i Cell.missing =
          Cell.num 0 ∨
      (oneHotRowCells (oneHotFitParts parts) x).getD i Cell.missing =
          Cell.num 1) := by
  have hnd := nodup_oneHotFitParts parts
  refine ⟨?_, ?_, ?_⟩
  · refine ⟨Cell.cat ((oneHotFitParts parts).get ⟨i, h⟩), fitted_cat_mem h, ?_⟩
    rw [oneHotRowCells_getD _ _ i h, if_pos rfl]
  · intro hk
    have hj : (if i = 0 then 1 else 0) < (oneHotFitParts parts).length := by
      by_cases hi0 : i = 0 <;> simp [hi0] <;> omega
    refine ⟨Cell.cat ((oneHotFitParts parts).get
      ⟨if i = 0 then 1 else 0, hj⟩), fitted_cat_mem hj, ?_⟩
    rw [oneHotRowCells_getD _ _ i h]
    have hne : ¬(oneHotFitParts parts).get ⟨if i = 0 then 1 else 0, hj⟩ =
        (oneHotFitParts parts).get ⟨i, h⟩ := by
      intro heq
      have := (hnd.getElem_inj_iff.1 heq)
      by_cases hi0 : i = 0
      · rw [hi0] at this
        simp at this
      · simp [hi0] at this
        omega
    rw [if_neg (fun hc => hne (Cell.cat.inj hc))]
  · intro x _
    rw [oneHotRowCells_getD _ x i h]
    by_cases hx : x = Cell.cat ((oneHotFitParts parts).get ⟨i, h⟩)
    · right; rw [if_pos hx]
    · left; rw [if_neg hx]

/-- Witness for C10 on the layout `[[cat a], [cat b, cat a]]`, column 0. -/
theorem C10_onehot_attains_witness :
    (0 < (oneHotFitParts [[Cell.cat "a"], [Cell.cat "b", Cell.cat "a"]]).length) ∧
    ((∃ x ∈ [[Cell.cat "a"], [Cell.cat "b", Cell.cat "a"]].flatten,
      (oneHotRowCells (oneHotFitParts [[Cell.cat "a"], [Cell.cat "b", Cell.cat "a"]]) x).getD 0 Cell.missing =
        Cell.num 1) ∧
    (2 ≤ (oneHotFitParts [[Cell.cat "a"], [Cell.cat "b", Cell.cat "a"]]).length →
      ∃ x ∈ [[Cell.cat "a"], [Cell.cat "b", Cell.cat "a"]].flatten,
        (oneHotRowCells (oneHotFitParts [[Cell.cat "a"], [Cell.cat "b", Cell.cat "a"]]) x).getD 0 Cell.missing =
          Cell.num 0) ∧
    (∀ x ∈ [[Cell.cat "a"], [Cell.cat "b", Cell.cat "a"]].flatten,
      (oneHotRowCells (oneHotFitParts [[Cell.cat "a"], [Cell.cat "b", Cell.cat "a"]]) x).getD 0 Cell.missing =
          Cell.num 0 ∨
      (oneHotRowCells (oneHotFitParts [[Cell.cat "a"], [Cell.cat "b", Cell.cat "a"]]) x).getD 0 Cell.missing =
          Cell.num 1)) :=
  ⟨by decide,
    C10_onehot_attains [[Cell.cat "a"], [Cell.cat "b", Cell.cat "a"]] 0
      (by decide)⟩

/-! ### Lemmas: realignment (flatten) commutes with the transforms -/

lemma flatten_map_map {α β : Type} (f : α → β) (ls : List (List α)) :
    (ls.map (List.map f)).flatten = ls.flatten.map f := by
  induction ls with
  | nil => rfl
  | cons p ps ih =>
    rw [List.map_cons, List.flatten_cons, List.flatten_cons, List.map_append,
      ih]

lemma labelTransformCol_cons (cats : List String) (x : Cell) (xs : List Cell) :
    labelTransformCol cats (x :: xs) =
      (match labelTransformCell cats x, labelTransformCol cats xs with
       | Except.ok y, Except.ok ys => Except.ok (y :: ys)
       | Except.error e, _ => Except.error e
       | _, Except.error e => Except.error e) := rfl

lemma labelTransformCol_append (cats : List String) (a b : List Cell) :
    labelTransformCol cats (a ++ b) =
      (match labelTransformCol cats a, labelTransformCol cats b with
       | Except.ok x, Except.ok y => Except.ok (x ++ y)
       | Except.error e, _ => Except.error e
       | _, Except.error e => Except.error e) := by
  induction a with
  | nil =>
    show labelTransformCol cats b = _
    cases labelTransformCol cats b <;> rfl
  | cons x xs ih =>
    rw [List.cons_append, labelTransformCol_cons, labelTransformCol_cons, ih]
    cases labelTransformCell cats x <;>
      cases labelTransformCol cats xs <;>
      cases labelTransformCol cats b <;> rfl

lemma labelTransformParts_flatten (cats : List String) :
    ∀ parts : List (List Cell),
      Except.map List.flatten (labelTransformParts cats parts) =
        labelTransformCol cats parts.flatten := by
  intro parts
  induction parts with
  | nil => rfl
  | cons p ps ih =>
    rw [List.flatten_cons, labelTransformCol_append, ← ih]
    show Except.map List.flatten
      (match labelTransformCol cats p, labelTransformParts cats ps with
       | Except.ok q, Except.ok qs => Except.ok (q :: qs)
       | Except.error e, _ => Except.error e
       | _, Except.error e => Except.error e) = _
    cases labelTransformCol cats p <;> cases labelTransformParts cats ps <;> rfl

lemma flatten_singleton {α : Type} (l : List α) : ([l] : List (List α)).flatten = l := by
  rw [List.flatten_cons]
  show l ++ [].flatten = l
  rw [show ([] : List (List α)).flatten = [] from rfl, List.append_nil]

/-- C1: partition-kind invariance — for every logical column (and hence
for every logical dataset, column by column), every ROW-SPLIT layout
`parts` of the column (whose blocks concatenate, in partition order, to
the canonical row order) and the COLUMN-SPLIT layout (the whole column
held by a single party, `[parts.flatten]`), `fit_transform` of each of the
four transformers produces numerically identical output once the ROW-SPLIT
output blocks are realigned (flattened) to the canonical row order. -/
theorem C1_partition_kind_invariance (parts : List (List Cell)) (v : Cell)
    (name : String) :
    (parts.map (fillTransformCol v)).flatten =
      fillTransformCol v ([parts.flatten] : List (List Cell)).flatten ∧
    Except.map List.flatten (minmaxFitTransform parts) =
      Except.map List.flatten (minmaxFitTransform [parts.flatten]) ∧
    Except.map (fun p => (p.1, p.2.flatten)) (oneHotFitTransform name parts) =
      Except.map (fun p => (p.1, p.2.flatten))
        (oneHotFitTransform name [parts.flatten]) ∧
    Except.map List.flatten (labelFitTransform parts) =
      Except.map List.flatten (labelFitTransform [parts.flatten]) := by
  have hcats : oneHotFitParts parts = oneHotFitParts [parts.flatten] := by
    rw [oneHotFitParts_eq_flatten, oneHotFitParts_eq_flatten, flatten_singleton]
  refine ⟨?_, ?_, ?_, ?_⟩
  · rw [flatten_singleton,
      show fillTransformCol v =
        List.map (fun x => if x = Cell.missing then v else x) from rfl,
      flatten_map_map]
  · rw [minmaxFitTransform, minmaxFitTransform, minmaxFitParts_eq_flatten]
    cases minmaxFitParts [parts.flatten] with
    | none => rfl
    | some st =>
      show Except.map List.flatten
          (Except.ok (parts.map (List.map (scaleCell st.1 st.2)))) = _
      rw [show Except.map List.flatten
          (Except.ok ([parts.flatten].map (List.map (scaleCell st.1 st.2)))) =
          Except.ok ([(parts.flatten.map (scaleCell st.1 st.2))].flatten) from
            rfl]
      rw [flatten_singleton]
      show Except.ok ((parts.map (List.map (scaleCell st.1 st.2))).flatten) = _
      rw [flatten_map_map]
  · rw [oneHotFitTransform, oneHotFitTransform, hcats]
    show Except.ok (oneHotNames name (oneHotFitParts [parts.flatten]),
        (parts.map (List.map (oneHotRowCells (oneHotFitParts [parts.flatten])))).flatten) = _
    rw [flatten_map_map]
    show _ = Except.ok (oneHotNames name (oneHotFitParts [parts.flatten]),
        ([parts.flatten.map (oneHotRowCells (oneHotFitParts [parts.flatten]))] :
          List (List (List Cell))).flatten)
    rw [flatten_singleton]
  · rw [labelFitTransform, labelFitTransform, labelFitParts, labelFitParts,
      hcats, labelTransformParts_flatten, labelTransformParts_flatten,
      flatten_singleton]

/-! ### Lemmas: FillNa at table level -/

lemma getD_map_rows (f : List Cell → List Cell) (hf : f [] = [])
    (rows : List (List Cell)) (j : Nat) :
    (rows.map f).getD j [] = f (rows.getD j []) := by
  by_cases hj : j < rows.length
  · have hj2 : j < (rows.map f).length := by rw [List.length_map]; exact hj
    rw [List.getD_eq_getElem _ _ hj2, List.getD_eq_getElem _ _ hj,
      List.getElem_map]
  · rw [List.getD_eq_getElem?_getD, List.getD_eq_getElem?_getD,
      List.getElem?_eq_none (by rw [List.length_map]; omega),
      List.getElem?_eq_none (by omega)]
    exact hf.symm

lemma fillRowAt_nil (i : Nat) (v : Cell) : fillRowAt i v [] = [] := rfl

lemma fillColPart_party (c : String) (v : Cell) (p : Partition) :
    (fillColPart c v p).party = p.party := by
  unfold fillColPart
  cases idxOf? p.cols c <;> rfl

lemma fillColPart_cols (c : String) (v : Cell) (p : Partition) :
    (fillColPart c v p).cols = p.cols := by
  unfold fillColPart
  cases idxOf? p.cols c <;> rfl

lemma fillColPart_rows_len (c : String) (v : Cell) (p : Partition) :
    (fillColPart c v p).rows.length = p.rows.length := by
  unfold fillColPart
  cases idxOf? p.cols c with
  | none => rfl
  | some i => exact List.length_map p.rows (fillRowAt i v)

lemma fillColPart_row_len (c : String) (v : Cell) (p : Partition) (j : Nat) :
    ((fillColPart c v p).rows.getD j []).length = (p.rows.getD j []).length := by
  unfold fillColPart
  cases idxOf? p.cols c with
  | none => rfl
  | some i =>
    show ((p.rows.map (fillRowAt i v)).getD j []).length = _
    rw [getD_map_rows _ (fillRowAt_nil i v)]
    exact List.length_set _ _ _

lemma fillColPart_wf {p : Partition} (hwf : p.wf) (c : String) (v : Cell) :
    (fillColPart c v p).wf := by
  constructor
  · rw [fillColPart_cols]; exact hwf.1
  · intro r hr
    rw [fillColPart_cols]
    unfold fillColPart at hr
    cases hidx : idxOf? p.cols c with
    | none => rw [hidx] at hr; exact hwf.2 r hr
    | some i =>
      rw [hidx] at hr
      rcases List.mem_map.1 hr with ⟨r0, hr0, hfr⟩
      rw [← hfr]
      rw [show (fillRowAt i v r0).length = r0.length from List.length_set _ _ _]
      exact hwf.2 r0 hr0

/-- Pointwise effect of filling one column of one partition. -/
lemma fillColPart_cellAt {p : Partition} (hwf : p.wf) (c : String) (v : Cell)
    {j k : Nat} (hj : j < p.rows.length) (hk : k < p.cols.length) :
    cellAt (fillColPart c v p) j k =
      (if p.cols.getD k "" = c then
        (if cellAt p j k = Cell.missing then v else cellAt p j k)
       else cellAt p j k) := by
  unfold fillColPart
  cases hidx : idxOf? p.cols c with
  | none =>
    have hnc : ¬p.cols.getD k "" = c := by
      intro hck
      rcases idxOf?_of_mem p.cols c
        (hck ▸ (List.getD_eq_getElem _ _ hk ▸ List.getElem_mem hk)) with ⟨i, hi, _⟩
      rw [hidx] at hi
      cases hi
    rw [if_neg hnc]
  | some i =>
    rcases idxOf?_some_getElem hidx with ⟨hilt, hieq⟩
    show cellAt ⟨p.party, p.cols, p.rows.map (fillRowAt i v)⟩ j k = _
    have hrlen : (p.rows.getD j []).length = p.cols.length :=
      hwf.2 _ (List.getD_eq_getElem _ _ hj ▸ List.getElem_mem hj)
    rw [show cellAt ⟨p.party, p.cols, p.rows.map (fillRowAt i v)⟩ j k =
        ((p.rows.map (fillRowAt i v)).getD j []).getD k Cell.missing from rfl,
      getD_map_rows _ (fillRowAt_nil i v)]
    rw [show fillRowAt i v (p.rows.getD j []) =
      (p.rows.getD j []).set i
        (if (p.rows.getD j []).getD i Cell.missing = Cell.missing then v
         else (p.rows.getD j []).getD i Cell.missing) from rfl]
    by_cases hki : k = i
    · subst hki
      have hklt : k < (p.rows.getD j []).length := by omega
      rw [List.getD_eq_getElem?_getD, List.getElem?_set, if_pos rfl,
        if_pos hklt]
      have hck : p.cols.getD k "" = c := by
        rw [List.getD_eq_getElem _ _ hk]
        exact hieq
      rw [if_pos hck]
      rfl
    · rw [List.getD_eq_getElem?_getD, List.getElem?_set,
        if_neg (fun hik => hki hik.symm)]
      have hnc : ¬p.cols.getD k "" = c := by
        intro hck
        apply hki
        apply hwf.1.getElem_inj_iff.1
        rw [List.getD_eq_getElem p.cols "" hk] at hck
        rw [hck, hieq]
      rw [if_neg hnc]
      simp [cellAt, List.getD_eq_getElem?_getD]

lemma fillnaParts_eq_map (m : List (String × Cell)) : ∀ ps : List Partition,
    fillnaParts m ps = ps.map (fillPartAll m) := by
  induction m with
  | nil =>
    intro ps
    induction ps with
    | nil => rfl
    | cons p ps ihp =>
      rw [List.map_cons, ← ihp]
      rfl
  | cons cv m ih =>
    intro ps
    show fillnaParts m (ps.map (fillColPart cv.1 cv.2)) = _
    rw [ih, List.map_map]
    rfl

lemma lookup_eq_none_of_not_mem {m : List (String × Cell)} {c : String}
    (h : c ∉ m.map Prod.fst) : m.lookup c = none := by
  induction m with
  | nil => rfl
  | cons kv m ih =>
    have hk : ¬c = kv.1 := fun hc => h (hc ▸ List.mem_map.2 ⟨kv, List.mem_cons_self kv m, rfl⟩)
    have hm : c ∉ m.map Prod.fst := fun hc => h (List.mem_cons_of_mem _ hc)
    rcases kv with ⟨k, v⟩
    rw [List.lookup_cons, show (c == k) = false from beq_eq_false_iff_ne.2 hk]
    exact ih hm

lemma fillCell_not_mem {m : List (String × Cell)} {c : String}
    (h : c ∉ m.map Prod.fst) (x : Cell) : fillCell m c x = x := by
  unfold fillCell
  rw [lookup_eq_none_of_not_mem h]

lemma fillCell_cons (k : String) (v : Cell) (m : List (String × Cell))
    (c : String) (x : Cell) :
    fillCell ((k, v) :: m) c x =
      if c = k then (if x = Cell.missing then v else x) else fillCell m c x := by
  unfold fillCell
  rw [List.lookup_cons]
  by_cases h : c = k
  · rw [if_pos h, show (c == k) = true from beq_iff_eq.2 h]
  · rw [if_neg h, show (c == k) = false from beq_eq_false_iff_ne.2 h]

lemma fillPartAll_party (m : List (String × Cell)) : ∀ p : Partition,
    (fillPartAll m p).party = p.party := by
  induction m with
  | nil => intro p; rfl
  | cons cv m ih =>
    intro p
    show (fillPartAll m (fillColPart cv.1 cv.2 p)).party = _
    rw [ih, fillColPart_party]

lemma fillPartAll_cols (m : List (String × Cell)) : ∀ p : Partition,
    (fillPartAll m p).cols = p.cols := by
  induction m with
  | nil => intro p; rfl
  | cons cv m ih =>
    intro p
    show (fillPartAll m (fillColPart cv.1 cv.2 p)).cols = _
    rw [ih, fillColPart_cols]

lemma fillColPart_rowlens (c : String) (v : Cell) (p : Partition) :
    (fillColPart c v p).rows.map List.length = p.rows.map List.length := by
  unfold fillColPart
  cases idxOf? p.cols c with
  | none => rfl
  | some i =>
    show (p.rows.map (fillRowAt i v)).map List.length = _
    rw [List.map_map]
    exact List.map_congr_left (fun r _ => List.length_set r _ _)

lemma fillPartAll_rowlens (m : List (String × Cell)) : ∀ p : Partition,
    (fillPartAll m p).rows.map List.length = p.rows.map List.length := by
  induction m with
  | nil => intro p; rfl
  | cons cv m ih =>
    intro p
    show (fillPartAll m (fillColPart cv.1 cv.2 p)).rows.map List.length = _
    rw [ih, fillColPart_rowlens]

lemma fillPartAll_rows_len (m : List (String × Cell)) (p : Partition) :
    (fillPartAll m p).rows.length = p.rows.length := by
  have h := congrArg List.length (fillPartAll_rowlens m p)
  rw [List.length_map, List.length_map] at h
  exact h

lemma fillPartAll_wf (m : List (String × Cell)) : ∀ p : Partition, p.wf →
    (fillPartAll m p).wf := by
  induction m with
  | nil => intro p h; exact h
  | cons cv m ih =>
    intro p h
    exact ih (fillColPart cv.1 cv.2 p) (fillColPart_wf h cv.1 cv.2)

/-- Pointwise effect of FillNa on one partition: each cell is transformed
exactly as `fillCell` specifies for its column name. -/
lemma fillPartAll_cellAt : ∀ (m : List (String × Cell)) (p : Partition),
    p.wf → (m.map Prod.fst).Nodup → ∀ {j k : Nat}, j < p.rows.length →
    k < p.cols.length →
    cellAt (fillPartAll m p) j k =
      fillCell m (p.cols.getD k "") (cellAt p j k) := by
  intro m
  induction m with
  | nil =>
    intro p _ _ j k _ _
    rfl
  | cons cv m ih =>
    intro p hwf hnd j k hj hk
    rcases cv with ⟨c0, v0⟩
    have hnd' : c0 ∉ m.map Prod.fst ∧ (m.map Prod.fst).Nodup :=
      List.nodup_cons.1 hnd
    show cellAt (fillPartAll m (fillColPart c0 v0 p)) j k = _
    rw [ih (fillColPart c0 v0 p) (fillColPart_wf hwf c0 v0) hnd'.2
      (by rw [fillColPart_rows_len]; exact hj)
      (by rw [fillColPart_cols]; exact hk)]
    rw [fillColPart_cols, fillColPart_cellAt hwf c0 v0 hj hk, fillCell_cons]
    by_cases hck : p.cols.getD k "" = c0
    · rw [if_pos hck, if_pos hck]
      exact fillCell_not_mem (hck ▸ hnd'.1) _
    · rw [if_neg hck, if_neg hck]

/-- C4: FillNa transform frame property — when every fill-map key names a
column of the table, `transform` succeeds and returns a table of identical
partition kind, party ownership, column names and row geometry, in which
each cell of a fill-map column that was missing equals exactly the
supplied fill value, every non-missing cell is unchanged, and every column
absent from the fill map is untouched (the pointwise `fillCell`
characterization). -/
theorem C4_fillna_frame (t : PTable) (m : List (String × Cell))
    (hwf : ∀ p ∈ t.parts, p.wf)
    (hkeys : ∀ cv ∈ m, cv.1 ∈ tableColumns t)
    (hnd : (m.map Prod.fst).Nodup) :
    fillna t m = Except.ok ⟨t.kind, fillnaParts m t.parts, t.agg, t.cmp⟩ ∧
    (fillnaParts m t.parts).map (fun p => (p.party, p.cols)) =
      t.parts.map (fun p => (p.party, p.cols)) ∧
    (fillnaParts m t.parts).map (fun p => p.rows.map List.length) =
      t.parts.map (fun p => p.rows.map List.length) ∧
    ∀ pi : Nat, pi < t.parts.length →
      ∀ j k : Nat, j < (t.parts.getD pi defPart).rows.length →
        k < (t.parts.getD pi defPart).cols.length →
        cellAt ((fillnaParts m t.parts).getD pi defPart) j k =
          fillCell m ((t.parts.getD pi defPart).cols.getD k "")
            (cellAt (t.parts.getD pi defPart) j k) := by
  refine ⟨?_, ?_, ?_, ?_⟩
  · rw [fillna, if_pos]
    rw [List.all_eq_true]
    intro cv hcv
    exact decide_eq_true (hkeys cv hcv)
  · rw [fillnaParts_eq_map, List.map_map]
    refine List.map_congr_left (fun p _ => ?_)
    show ((fillPartAll m p).party, (fillPartAll m p).cols) = (p.party, p.cols)
    rw [fillPartAll_party, fillPartAll_cols]
  · rw [fillnaParts_eq_map, List.map_map]
    exact List.map_congr_left (fun p _ => fillPartAll_rowlens m p)
  · intro pi hpi j k hj hk
    have hgd : t.parts.getD pi defPart = t.parts[pi] :=
      List.getD_eq_getElem _ _ hpi
    rw [hgd] at hj hk ⊢
    rw [fillnaParts_eq_map]
    have hpi2 : pi < (t.parts.map (fillPartAll m)).length := by
      rw [List.length_map]
      exact hpi
    rw [List.getD_eq_getElem _ _ hpi2, List.getElem_map]
    exact fillPartAll_cellAt m (t.parts[pi]) (hwf _ (List.getElem_mem hpi))
      hnd hj hk

/-- Witness for C4 on `sampleTable` with `sampleFill`. -/
theorem C4_fillna_frame_witness :
    (∀ p ∈ sampleTable.parts, p.wf) ∧
    (∀ cv ∈ sampleFill, cv.1 ∈ tableColumns sampleTable) ∧
    (sampleFill.map Prod.fst).Nodup ∧
    (fillna sampleTable sampleFill =
      Except.ok ⟨sampleTable.kind, fillnaParts sampleFill sampleTable.parts,
        sampleTable.agg, sampleTable.cmp⟩ ∧
    (fillnaParts sampleFill sampleTable.parts).map (fun p => (p.party, p.cols)) =
      sampleTable.parts.map (fun p => (p.party, p.cols)) ∧
    (fillnaParts sampleFill sampleTable.parts).map
        (fun p => p.rows.map List.length) =
      sampleTable.parts.map (fun p => p.rows.map List.length) ∧
    ∀ pi : Nat, pi < sampleTable.parts.length →
      ∀ j k : Nat, j < (sampleTable.parts.getD pi defPart).rows.length →
        k < (sampleTable.parts.getD pi defPart).cols.length →
        cellAt ((fillnaParts sampleFill sampleTable.parts).getD pi defPart) j k =
          fillCell sampleFill
            ((sampleTable.parts.getD pi defPart).cols.getD k "")
            (cellAt (sampleTable.parts.getD pi defPart) j k)) :=
  ⟨by decide, by decide, by decide,
   C4_fillna_frame sampleTable sampleFill (by decide) (by decide) (by decide)⟩

/-! ### Lemmas: COLUMN-SPLIT tables need no capabilities -/

lemma colValues_some_of_mem {p : Partition} {c : String} (h : c ∈ p.cols) :
    ∃ vals, p.colValues c = some vals := by
  rcases idxOf?_of_mem p.cols c h with ⟨i, hi, _⟩
  exact ⟨p.rows.map (fun r => r.getD i Cell.missing), by
    rw [Partition.colValues, hi]
    rfl⟩

lemma colValues_none_of_not_mem {p : Partition} {c : String} (h : c ∉ p.cols) :
    p.colValues c = none := by
  rw [Partition.colValues, idxOf?_none_of_not_mem h]
  rfl

/-- In a table whose column names are globally duplicate-free (a
well-formed COLUMN-SPLIT table), a present column is held by exactly one
party: the per-party slice list is a singleton. -/
lemma filterMap_colValues_singleton {c : String} : ∀ ps : List Partition,
    ((ps.map Partition.cols).flatten).Nodup →
    c ∈ (ps.map Partition.cols).flatten →
    ∃ vals, ps.filterMap (fun p => p.colValues c) = [vals] := by
  intro ps
  induction ps with
  | nil => intro _ hc; cases hc
  | cons p ps ih =>
    intro hnd hc
    rw [List.map_cons, List.flatten_cons] at hnd hc
    have hnd3 := List.nodup_append.1 hnd
    by_cases hp : c ∈ p.cols
    · rcases colValues_some_of_mem hp with ⟨vals, hv⟩
      refine ⟨vals, ?_⟩
      rw [List.filterMap_cons, hv]
      have hrest : ps.filterMap (fun q => q.colValues c) = [] := by
        rw [List.filterMap_eq_nil_iff]
        intro q hq
        apply colValues_none_of_not_mem
        intro hcq
        exact (hnd3.2.2 hp) (List.mem_flatten.2
          ⟨q.cols, List.mem_map.2 ⟨q, hq, rfl⟩, hcq⟩)
      rw [hrest]
    · have hcrest : c ∈ (ps.map Partition.cols).flatten := by
        rcases List.mem_append.1 hc with h | h
        · exact absurd h hp
        · exact h
      rcases ih hnd3.2.1 hcrest with ⟨vals, hv⟩
      refine ⟨vals, ?_⟩
      rw [List.filterMap_cons, colValues_none_of_not_mem hp, hv]

lemma labelTransformCol_ok_of_seen (cats : List String) :
    ∀ vals : List Cell, (∀ s, s ∈ catsOf vals → s ∈ cats) →
    ∃ out, labelTransformCol cats vals = Except.ok out := by
  intro vals
  induction vals with
  | nil => intro _; exact ⟨[], rfl⟩
  | cons x xs ih =>
    intro hseen
    have hxs : ∀ s, s ∈ catsOf xs → s ∈ cats := by
      intro s hs
      apply hseen
      show s ∈ List.filterMap cellCat? (x :: xs)
      rw [List.filterMap_cons]
      cases hcx : cellCat? x
      · exact hs
      · exact List.mem_cons_of_mem _ hs
    rcases ih hxs with ⟨out, hout⟩
    have hx : ∃ y, labelTransformCell cats x = Except.ok y := by
      cases x with
      | num q => exact ⟨Cell.num q, rfl⟩
      | missing => exact ⟨Cell.missing, rfl⟩
      | cat s =>
        have hs : s ∈ cats := by
          apply hseen
          show s ∈ List.filterMap cellCat? (Cell.cat s :: xs)
          rw [List.filterMap_cons]
          exact List.mem_cons_self s _
        rcases idxOf?_of_mem cats s hs with ⟨i, hi, _⟩
        exact ⟨Cell.num i, by rw [labelTransformCell_cat, hi]⟩
    rcases hx with ⟨y, hy⟩
    refine ⟨y :: out, ?_⟩
    rw [labelTransformCol_cons, hy, hout]

/-- C9: a COLUMN-SPLIT (vertical) table is constructed by `v_make` without
supplying any Aggregator or Comparator, and on such a table — with
duplicate-free global column names, so each column resides wholly with one
party — FillNa, MinMaxScaler, OneHotEncoder and LabelEncoder
`fit`/`transform` all succeed without any capability (the single-party
branch of the orchestration performs only local computation), whereas
constructing a ROW-SPLIT table via `h_make` succeeds exactly when both an
Aggregator and a Comparator are supplied. -/
theorem C9_vertical_no_capabilities (ps : List Partition) (c : String)
    (m : List (String × Cell))
    (hnd : (tableColumns (v_make ps)).Nodup)
    (hc : c ∈ tableColumns (v_make ps))
    (hnum : nums ((tableColParts (v_make ps) c).flatten) ≠ [])
    (hkeys : ∀ cv ∈ m, cv.1 ∈ tableColumns (v_make ps)) :
    ((v_make ps).agg = none ∧ (v_make ps).cmp = none) ∧
    (fillna (v_make ps) m).isOk = true ∧
    (minmaxFitTransformTable (v_make ps) c).isOk = true ∧
    (oneHotFitTransformTable (v_make ps) c).isOk = true ∧
    (labelFitTransformTable (v_make ps) c).isOk = true ∧
    (∀ (ps2 : List Partition) (oa : Option Aggregator) (oc : Option Comparator),
      (h_make ps2 oa oc).isOk = true ↔ oa.isSome = true ∧ oc.isSome = true) := by
  have hparts : tableColParts (v_make ps) c = ps.filterMap (fun p => p.colValues c) := rfl
  rcases filterMap_colValues_singleton ps hnd hc with ⟨vals, hv⟩
  have hv2 : tableColParts (v_make ps) c = [vals] := by rw [hparts, hv]
  have hnums : nums vals ≠ [] := by
    rw [hv2] at hnum
    rw [show ([vals] : List (List Cell)).flatten = vals ++ [] from rfl,
      List.append_nil] at hnum
    exact hnum
  refine ⟨⟨rfl, rfl⟩, ?_, ?_, ?_, ?_, ?_⟩
  · rw [fillna, if_pos]
    · rfl
    · rw [List.all_eq_true]
      intro cv hcv
      exact decide_eq_true (hkeys cv hcv)
  · have hmn : ∃ mn, localMin vals = some mn := by
      rcases hn : nums vals with _ | ⟨q, qs⟩
      · exact absurd hn hnums
      · exact ⟨qs.foldl min q, by rw [localMin, hn]; rfl⟩
    have hmx : ∃ mx, localMax vals = some mx := by
      rcases hn : nums vals with _ | ⟨q, qs⟩
      · exact absurd hn hnums
      · exact ⟨qs.foldl max q, by rw [localMax, hn]; rfl⟩
    rcases hmn with ⟨mn, hmn⟩
    rcases hmx with ⟨mx, hmx⟩
    rw [minmaxFitTransformTable, minmaxFitTable, hv2]
    show (match (match localMin vals, localMax vals with
        | some a, some b => Except.ok (a, b)
        | _, _ => Except.error PError.ComparisonError) with
      | Except.error e => Except.error e
      | Except.ok st =>
        Except.ok (List.map (List.map (scaleCell st.1 st.2)) [vals])).isOk = true
    rw [hmn, hmx]
    rfl
  · rw [oneHotFitTransformTable, catFitTable, hv2]
    rfl
  · rw [labelFitTransformTable, catFitTable, hv2]
    have hseen : ∀ s, s ∈ catsOf vals → s ∈ localCats vals :=
      fun s hs => mem_localCats.2 hs
    rcases labelTransformCol_ok_of_seen (localCats vals) vals hseen with ⟨out, hout⟩
    show (labelTransformParts (localCats vals) [vals]).isOk = true
    rw [show labelTransformParts (localCats vals) [vals] =
        (match labelTransformCol (localCats vals) vals,
            labelTransformParts (localCats vals) [] with
         | Except.ok q, Except.ok qs => Except.ok (q :: qs)
         | Except.error e, _ => Except.error e
         | _, Except.error e => Except.error e) from rfl, hout]
    rfl
  · intro ps2 oa oc
    cases oa <;> cases oc <;>
      simp [h_make, Except.isOk, Except.toBool, Option.isSome]

/-- Witness for C9 on `sampleTable` (vertical, no capabilities), column
`a`, fill map `sampleFill`. -/
theorem C9_vertical_no_capabilities_witness :
    ((tableColumns (v_make sampleTable.parts)).Nodup ∧
     "a" ∈ tableColumns (v_make sampleTable.parts) ∧
     nums ((tableColParts (v_make sampleTable.parts) "a").flatten) ≠ [] ∧
     (∀ cv ∈ sampleFill, cv.1 ∈ tableColumns (v_make sampleTable.parts))) ∧
    (((v_make sampleTable.parts).agg = none ∧
      (v_make sampleTable.parts).cmp = none) ∧
    (fillna (v_make sampleTable.parts) sampleFill).isOk = true ∧
    (minmaxFitTransformTable (v_make sampleTable.parts) "a").isOk = true ∧
    (oneHotFitTransformTable (v_make sampleTable.parts) "a").isOk = true ∧
    (labelFitTransformTable (v_make sampleTable.parts) "a").isOk = true ∧
    (∀ (ps2 : List Partition) (oa : Option Aggregator) (oc : Option Comparator),
      (h_make ps2 oa oc).isOk = true ↔ oa.isSome = true ∧ oc.isSome = true)) :=
  ⟨⟨by decide, by decide, by decide, by decide⟩,
   C9_vertical_no_capabilities sampleTable.parts "a" sampleFill
     (by decide) (by decide) (by decide) (by decide)⟩

end SecretFlow
